import Mathlib

/-!
Verification of the content-discovery and aggregation pipeline of the static
site generator (`src/generator.js` plus the stand-alone `ConfigLoader`).

Strings are modelled as lists of characters (`Str`), so that every string
operation used by the program (substring tests, splitting, joining paths)
is an executable Lean function that can be reasoned about by induction and
evaluated by `decide` on concrete inputs.  File paths use POSIX separators,
matching the runtime the program targets.
-/

/-- JavaScript strings, modelled as lists of characters. -/
abbrev Str : Type := List Char

/-- The characters of JS `\s` that occur in text files (ASCII part of the
class; the rarely used Unicode spaces are not modelled). -/
def isWsChar (c : Char) : Bool :=
  c = ' ' || c = '\t' || c = '\n' || c = '\r' || c = '\x0b' || c = '\x0c'

/-- Models JS `\w`: ASCII letters, digits and underscore. -/
def isWordChar (c : Char) : Bool :=
  c.isAlphanum || c = '_'

/-- Models `String.prototype.includes`: `needle` occurs as a contiguous substring. -/
def containsSub (needle : Str) : Str → Bool
  | [] => needle.isEmpty
  | c :: rest => needle.isPrefixOf (c :: rest) || containsSub needle rest

/-- Join path components with `/` (what `path.join` does to the plain
relative segments produced by the directory walk). -/
def joinComps : List Str → Str
  | [] => []
  | [p] => p
  | p :: q :: rest => p ++ '/' :: joinComps (q :: rest)

/-- Models `path.basename p`: the part after the last `/` (the walker's relative
paths have no trailing separator, so no normalisation is needed). -/
def basename (p : Str) : Str :=
  (p.splitOn '/').getLastD []

/-- Models `path.dirname p`: the components before the last one, `"."` when the
path is a bare file name. -/
def dirname (p : Str) : Str :=
  let parts := p.splitOn '/'
  if parts.length ≤ 1 then ['.'] else joinComps parts.dropLast

/-- Models `relativePath.replace(/\.md$/, '')`: drop a trailing `.md`. -/
def stripMdExt (p : Str) : Str :=
  if ".md".toList.isSuffixOf p then p.take (p.length - 3) else p

/-- Embeds `SmartConfigLoader.generateUrlFromPath` (lines 788-797), which is
also the core of `StaticSiteGenerator.generateUrl` (lines 183-193; that
variant first makes the path content-relative, which is the input here). -/
def generateUrlFromPath (filePath : Str) : Str :=
  let relativePath := stripMdExt filePath
  let b := basename relativePath
  let d := dirname relativePath
  if b = "index".toList then
    if d = ['.'] then ['/'] else '/' :: d ++ ['/']
  else
    '/' :: relativePath ++ ['/']

-- ### Helper lemmas about the path model

theorem joinComps_append_singleton (ds : List Str) (x : Str) :
    joinComps (ds ++ [x]) = if ds = [] then x else joinComps ds ++ '/' :: x := by
  induction ds with
  | nil => simp [joinComps]
  | cons d ds ih =>
    cases ds with
    | nil => simp [joinComps]
    | cons e es =>
      have h := ih
      simp only [List.cons_append] at h
      simp only [List.cons_append, joinComps, List.append_eq]
      rw [h]
      simp

theorem joinComps_eq_intercalate (ds : List Str) :
    joinComps ds = List.intercalate (['/']) ds := by
  induction ds with
  | nil => simp [joinComps, List.intercalate]
  | cons d ds ih =>
    cases ds with
    | nil => simp [joinComps, List.intercalate]
    | cons e es =>
      rw [joinComps, ih]
      simp only [List.intercalate, List.intersperse, List.flatten]
      simp [List.append_assoc]

theorem splitOn_joinComps (ds : List Str) (hne : ds ≠ [])
    (h : ∀ d ∈ ds, '/' ∉ d) :
    (joinComps ds).splitOn '/' = ds := by
  rw [joinComps_eq_intercalate]
  exact List.splitOn_intercalate ds '/' h hne

theorem stripMdExt_append (s : Str) : stripMdExt (s ++ ".md".toList) = s := by
  have hsuf : ".md".toList.isSuffixOf (s ++ ".md".toList) = true := by
    rw [List.isSuffixOf_iff_suffix]
    exact List.suffix_append s _
  rw [stripMdExt, if_pos hsuf]
  have hlen : (s ++ ".md".toList).length - 3 = s.length := by
    simp [List.length_append]
  rw [hlen]
  exact List.take_left s _

theorem joinComps_md (ds : List Str) (b : Str) :
    joinComps (ds ++ [b ++ ".md".toList]) = joinComps (ds ++ [b]) ++ ".md".toList := by
  rw [joinComps_append_singleton, joinComps_append_singleton]
  by_cases h : ds = [] <;> simp [h, List.append_assoc]

theorem basename_joinComps (ds : List Str) (b : Str)
    (hds : ∀ d ∈ ds, '/' ∉ d) (hb : '/' ∉ b) :
    basename (joinComps (ds ++ [b])) = b := by
  rw [basename, splitOn_joinComps]
  · simp
  · exact List.append_ne_nil_of_right_ne_nil ds (by simp)
  · intro d hd
    rcases List.mem_append.mp hd with h | h
    · exact hds d h
    · simp at h; simpa [h] using hb

theorem dirname_joinComps (ds : List Str) (b : Str)
    (hds : ∀ d ∈ ds, '/' ∉ d) (hb : '/' ∉ b) :
    dirname (joinComps (ds ++ [b])) = if ds = [] then ['.'] else joinComps ds := by
  rw [dirname, splitOn_joinComps]
  · by_cases h : ds = []
    · simp [h]
    · have hlen : ¬ (ds ++ [b]).length ≤ 1 := by
        cases ds with
        | nil => exact absurd rfl h
        | cons d rest => simp [List.length_append]
      simp [hlen, h, List.dropLast_concat]
  · exact List.append_ne_nil_of_right_ne_nil ds (by simp)
  · intro d hd
    rcases List.mem_append.mp hd with h | h
    · exact hds d h
    · simp at h; simpa [h] using hb

theorem joinComps_ne_dot (ds : List Str) (hne : ds ≠ [])
    (hds : ∀ d ∈ ds, '/' ∉ d ∧ d ≠ ['.']) :
    joinComps ds ≠ ['.'] := by
  cases ds with
  | nil => exact absurd rfl hne
  | cons d rest =>
    cases rest with
    | nil =>
      simpa [joinComps] using (hds d (by simp)).2
    | cons e es =>
      intro hcontr
      have hmem : '/' ∈ joinComps (d :: e :: es) := by
        rw [joinComps]
        exact List.mem_append.mpr (Or.inr (by simp))
      rw [hcontr] at hmem
      simp at hmem

/-- C1.  The URL derived from a well-formed source-relative Markdown path
(directory components `ds`, base name `b`, all `/`-free, none equal to `.`)
follows the spec's rule, and the four required examples are bit-exact. -/
theorem c1_generateUrl :
    (∀ (ds : List Str) (b : Str), (∀ d ∈ ds, '/' ∉ d ∧ d ≠ ['.']) → '/' ∉ b →
      generateUrlFromPath (joinComps (ds ++ [b ++ ".md".toList])) =
        if b = "index".toList then
          (if ds = [] then ['/'] else '/' :: joinComps ds ++ ['/'])
        else '/' :: joinComps (ds ++ [b]) ++ ['/']) ∧
    generateUrlFromPath ("about.md".toList) = "/about/".toList ∧
    generateUrlFromPath ("index.md".toList) = "/".toList ∧
    generateUrlFromPath ("blog/index.md".toList) = "/blog/".toList ∧
    generateUrlFromPath ("blog/post-1.md".toList) = "/blog/post-1/".toList := by
  refine ⟨?_, by decide, by decide, by decide, by decide⟩
  intro ds b hds hb
  have hds' : ∀ d ∈ ds, '/' ∉ d := fun d hd => (hds d hd).1
  have hstrip : stripMdExt (joinComps (ds ++ [b ++ ".md".toList])) = joinComps (ds ++ [b]) := by
    rw [joinComps_md, stripMdExt_append]
  rw [generateUrlFromPath]
  simp only [hstrip, basename_joinComps ds b hds' hb, dirname_joinComps ds b hds' hb]
  by_cases hidx : b = "index".toList
  · by_cases hnil : ds = []
    · simp [hidx, hnil]
    · have hdot := joinComps_ne_dot ds hnil hds
      simp [hidx, hnil, hdot]
  · have hidx' : b ≠ ['i', 'n', 'd', 'e', 'x'] := by simpa using hidx
    simp [hidx']

theorem c1_generateUrl_witness :
    generateUrlFromPath (joinComps (["blog".toList] ++ ["post-1".toList ++ ".md".toList])) =
      '/' :: joinComps (["blog".toList] ++ ["post-1".toList]) ++ ['/'] := by
  have h := c1_generateUrl.1 (["blog".toList]) ("post-1".toList) (by decide) (by decide)
  simpa using h

theorem containsSub_iff (needle : Str) (haystack : Str) :
    containsSub needle haystack = true ↔ needle <:+: haystack := by
  induction haystack with
  | nil =>
    simp [containsSub, List.isEmpty_iff]
  | cons c rest ih =>
    rw [containsSub, List.infix_cons_iff]
    simp [ List.isPrefixOf_iff_prefix, ih]

theorem containsSub_eq_false (needle : Str) (haystack : Str) :
    containsSub needle haystack = false ↔ ¬ needle <:+: haystack := by
  rw [← containsSub_iff]
  simp

-- ### Post / page classification (C3, C10)

/-- The `getAllPosts` condition (line 560):
`filePath.endsWith('.md') && !relativePath.includes('index.md')`. -/
def postFileFilter (relativePath : Str) : Bool :=
  ".md".toList.isSuffixOf relativePath && !(containsSub ("index.md".toList) relativePath)

/-- The `getPages` condition (line 693):
`filePath.endsWith('.md') && relativePath.includes('index.md')`. -/
def pageFileFilter (relativePath : Str) : Bool :=
  ".md".toList.isSuffixOf relativePath && containsSub ("index.md".toList) relativePath

/-- The `collectPostsInfo` skip condition (line 58):
`path.basename(filePath) === 'index.md'`. -/
def collectSkip (filePath : Str) : Bool :=
  basename filePath = "index.md".toList

/-- C3, counterexample: `my-index.md` has base name `my-index`, not `index`,
yet it is excluded from the post corpus and classified as a page, because the
exclusion tests for the substring `index.md`, not for the base name. -/
theorem c3_counterexample :
    basename (stripMdExt ("my-index.md".toList)) ≠ "index".toList ∧
    postFileFilter ("my-index.md".toList) = false ∧
    pageFileFilter ("my-index.md".toList) = true := by
  decide

/-- C3 (amended).  In `getAllPosts`/`getPages` a discovered `.md` file is
excluded from the post corpus — and classified as a page — iff its relative
path contains the substring `index.md`; every file whose base name is `index`
satisfies this, but so can files with other base names.  `collectPostsInfo`
instead skips exactly the files whose base name is `index.md`. -/
theorem c3_index_classification :
    (∀ rel : Str, postFileFilter rel = true ↔
      (".md".toList.isSuffixOf rel = true ∧ ¬ "index.md".toList <:+: rel)) ∧
    (∀ rel : Str, pageFileFilter rel = true ↔
      (".md".toList.isSuffixOf rel = true ∧ "index.md".toList <:+: rel)) ∧
    (∀ (ds : List Str) (b : Str), (∀ d ∈ ds, '/' ∉ d) → '/' ∉ b →
      b = "index".toList →
      postFileFilter (joinComps (ds ++ [b ++ ".md".toList])) = false ∧
      pageFileFilter (joinComps (ds ++ [b ++ ".md".toList])) = true ∧
      collectSkip (joinComps (ds ++ [b ++ ".md".toList])) = true) := by
  refine ⟨?_, ?_, ?_⟩
  · intro rel
    simp [postFileFilter, containsSub_iff, containsSub_eq_false]
  · intro rel
    simp [pageFileFilter, containsSub_iff]
  · intro ds b hds hb hidx
    subst hidx
    have hb2 : "index".toList ++ ".md".toList = "index.md".toList := rfl
    rw [hb2]
    have hbase : basename (joinComps (ds ++ ["index.md".toList])) = "index.md".toList :=
      basename_joinComps ds _ hds (by decide)
    have hsuf : ".md".toList.isSuffixOf (joinComps (ds ++ ["index.md".toList])) = true := by
      rw [List.isSuffixOf_iff_suffix, joinComps_append_singleton]
      by_cases h : ds = []
      · rw [if_pos h]; decide
      · rw [if_neg h]
        exact List.IsSuffix.trans (by decide) (List.suffix_append _ _)
    have hinf : "index.md".toList <:+: joinComps (ds ++ ["index.md".toList]) := by
      rw [joinComps_append_singleton]
      by_cases h : ds = []
      · simp [h]
      · rw [if_neg h]
        exact List.IsSuffix.isInfix
          (List.IsSuffix.trans (List.suffix_cons '/' _) (List.suffix_append _ _))
    have hcont : containsSub ("index.md".toList) (joinComps (ds ++ ["index.md".toList])) = true :=
      (containsSub_iff _ _).mpr hinf
    refine ⟨?_, ?_, ?_⟩
    · simp only [postFileFilter, hsuf, hcont]
      rfl
    · simp only [pageFileFilter, hsuf, hcont]
      rfl
    · simp only [collectSkip, hbase]
      rfl

theorem c3_index_classification_witness :
    postFileFilter (joinComps ([] ++ ["index".toList ++ ".md".toList])) = false ∧
    pageFileFilter (joinComps ([] ++ ["index".toList ++ ".md".toList])) = true ∧
    collectSkip (joinComps ([] ++ ["index".toList ++ ".md".toList])) = true :=
  c3_index_classification.2.2 [] ("index".toList) (by decide) (by decide) rfl

-- ### Front matter and text processing

/-- The ways `\s*\n` can match a prefix of `s`, in the regex engine's
preference order (greedy: longest `\s*` first); each candidate is the
remainder of `s` after the consumed prefix. -/
def wsNlSplits (s : Str) : List Str :=
  ((List.range ((s.takeWhile isWsChar).length + 1)).reverse).filterMap (fun n =>
    if (s.take n).all isWsChar then
      match s.drop n with
      | '\n' :: rest => some rest
      | _ => none
    else none)

/-- Scan for the closing `\n---\s*\n` of the front-matter pattern, group 1
being lazy (shortest first) and the trailing `\s*` greedy; returns the pair
(group 1, remainder after the close). -/
def findCloseAux (acc : Str) : Str → Option (Str × Str)
  | [] => none
  | c :: cs =>
    if "\n---".toList.isPrefixOf (c :: cs) then
      match (wsNlSplits ((c :: cs).drop 4)).head? with
      | some g2 => some (acc.reverse, g2)
      | none => findCloseAux (c :: acc) cs
    else findCloseAux (c :: acc) cs

/-- The front-matter regex `/^---\s*\n([\s\S]*?)\n---\s*\n/` shared by
`parseMarkdownFile` (which adds a trailing `([\s\S]*)$`, matching whenever
this core does) and `extractFrontMatter`, as a backtracking matcher.
Returns (group 1, the text after the closing delimiter) on a match. -/
def frontMatterMatch (content : Str) : Option (Str × Str) :=
  if "---".toList.isPrefixOf content then
    (wsNlSplits (content.drop 3)).findSome? (fun afterOpen => findCloseAux [] afterOpen)
  else none

/-- Embeds `SmartConfigLoader.extractFrontMatter`: group 1 of the
front-matter regex, or `null` when the pattern is absent. -/
def extractFrontMatter (content : Str) : Option Str :=
  (frontMatterMatch content).map (fun m => m.1)

/-- Models `content.replace(/^---\s*\n[\s\S]*?\n---\s*\n/, '')` in
`extractPostData`: the body after the front-matter block, or the whole
content when the pattern is absent. -/
def stripFrontMatter (content : Str) : Str :=
  match frontMatterMatch content with
  | some m => m.2
  | none => content

/-- The remainder of the string after the first `>` (the end of a `<...>`
tag span), or `none` when no `>` occurs. -/
def dropTag (cs : Str) : Option Str :=
  match cs.dropWhile (fun d => d ≠ '>') with
  | [] => none
  | _ :: rest => some rest

/-- Recursion worker for `stripTags`; every step consumes at least one
character, so `fuel = s.length` always suffices and the fuel-0 branch is
never reached on the initial call. -/
def stripTagsFuel : Nat → Str → Str
  | 0, s => s
  | _ + 1, [] => []
  | fuel + 1, c :: cs =>
    if c = '<' then
      match dropTag cs with
      | none => c :: stripTagsFuel fuel cs
      | some rest => stripTagsFuel fuel rest
    else c :: stripTagsFuel fuel cs

/-- Models `text.replace(/<[^>]*>/g, '')`: drop `<...>` tag spans; a `<` with no
closing `>` later in the string matches nothing and is kept. -/
def stripTags (s : Str) : Str :=
  stripTagsFuel s.length s

/-- Models `String.prototype.trim` (ASCII whitespace). -/
def jsTrim (s : Str) : Str :=
  ((s.dropWhile isWsChar).reverse.dropWhile isWsChar).reverse

/-- Embeds `SmartConfigLoader.generateExcerpt` (default length 150): strip
HTML tags, turn CR/LF into spaces, trim, truncate to 150 characters adding
`...` when the text was longer. -/
def generateExcerpt (content : Str) : Str :=
  let text := jsTrim ((stripTags content).map (fun c => if c = '\r' || c = '\n' then ' ' else c))
  if 150 < text.length then text.take 150 ++ "...".toList else text

/-- Embeds `countWords`: strip characters that are neither word characters
nor whitespace, split on whitespace, count the nonempty tokens.  Splitting
at every whitespace character and discarding the empty pieces counts
exactly the maximal nonempty runs, as `split(/\s+/).filter(Boolean)` does. -/
def countWords (text : Str) : Nat :=
  let cleaned := text.filter (fun c => isWordChar c || isWsChar c)
  ((cleaned.splitOnP isWsChar).filter (fun w => !w.isEmpty)).length

/-- Embeds `calculateReadingTime`: `Math.ceil(wordCount / 200)`, written as
the natural-number ceiling `(w + 200 - 1) / 200`. -/
def calculateReadingTime (text : Str) : Nat :=
  (countWords text + 200 - 1) / 200

/-- The characters `slugify` keeps: `\w` plus the CJK range
`一`-`龥`. -/
def isSlugChar (c : Char) : Bool :=
  isWordChar c || ('一' ≤ c && c ≤ '龥')

/-- Recursion worker for `dashRuns`; as in `stripTagsFuel`, every step
consumes at least one character, so `fuel = s.length` suffices. -/
def dashRunsFuel : Nat → Str → Str
  | 0, s => s
  | _ + 1, [] => []
  | fuel + 1, c :: cs =>
    if isSlugChar c then c :: dashRunsFuel fuel cs
    else '-' :: dashRunsFuel fuel (cs.dropWhile (fun d => !isSlugChar d))

/-- Replace each maximal run of non-slug characters by a single `-`
(the `/[^\w一-龥]+/g` → `-` step of `slugify`). -/
def dashRuns (s : Str) : Str :=
  dashRunsFuel s.length s

/-- Embeds `slugify`: lowercase (ASCII `toLower`; the CJK characters the
site uses are unaffected by `toLowerCase`), collapse runs of other
characters to `-`, and strip leading and trailing dashes. -/
def slugify (text : Str) : Str :=
  (((dashRuns (text.map Char.toLower)).dropWhile (fun c => c = '-')).reverse.dropWhile
    (fun c => c = '-')).reverse

-- ### Extracted entries (C2, C8)

/-- The metadata fields the generator reads off a parsed front-matter
mapping; an absent key is `none`. -/
structure Metadata where
  title : Option Str := none
  date : Option Str := none
  layout : Option Str := none
  categories : Option (List Str) := none
  tags : Option (List Str) := none
  author : Option Str := none
  excerpt : Option Str := none
  featured : Option Bool := none
  draft : Option Bool := none
deriving Repr, DecidableEq

/-- Models JS `metadata.field || default` for a string field: a missing key and the
empty string are falsy. -/
def jsOrStr (v : Option Str) (d : Str) : Str :=
  match v with
  | some s => if s = [] then d else s
  | none => d

/-- Models JS `metadata.field || []` for an array field (an empty array is truthy,
so it is kept). -/
def jsOrList (v : Option (List Str)) : List Str :=
  v.getD []

/-- Models JS `metadata.field || false` for a boolean field. -/
def jsOrBool (v : Option Bool) : Bool :=
  v.getD false

/-- A normalized post/page entry as built by `extractPostData`. -/
structure Post where
  title : Str
  date : Str
  layout : Str
  categories : List Str
  tags : List Str
  author : Str
  excerpt : Str
  featured : Bool
  draft : Bool
  path : Str
  url : Str
  filename : Str
  directory : Str
  wordCount : Nat
  readingTime : Nat
deriving Repr, DecidableEq

/-- Embeds `SmartConfigLoader.extractPostData` (lines 572-606).  `yamlLoad`
is the external YAML parser applied to the front-matter text: `.error`
models a thrown parse error (caught by the surrounding `try`, which returns
`null`), `.ok none` a `null` document (reading `.title` of `null` throws,
with the same effect).  `siteAuthor` is `this.config.site.author` and
`today` is `new Date().toISOString().split('T')[0]`. -/
def extractPostData (yamlLoad : Str → Except Unit (Option Metadata))
    (siteAuthor today : Str) (content relativePath : Str) : Option Post :=
  match extractFrontMatter content with
  | none => none
  | some fm =>
    match yamlLoad fm with
    | Except.error _ => none
    | Except.ok none => none
    | Except.ok (some metadata) =>
      let markdownContent := stripFrontMatter content
      some {
        title := jsOrStr metadata.title (stripMdExt (basename relativePath))
        date := jsOrStr metadata.date today
        layout := jsOrStr metadata.layout ("post".toList)
        categories := jsOrList metadata.categories
        tags := jsOrList metadata.tags
        author := jsOrStr metadata.author siteAuthor
        excerpt := jsOrStr metadata.excerpt (generateExcerpt markdownContent)
        featured := jsOrBool metadata.featured
        draft := jsOrBool metadata.draft
        path := relativePath
        url := generateUrlFromPath relativePath
        filename := stripMdExt (basename relativePath)
        directory := dirname relativePath
        wordCount := countWords markdownContent
        readingTime := calculateReadingTime markdownContent }

/-- Embeds `formatTitle`: split the file name on `-` and capitalize each
word's first letter, joining with spaces. -/
def formatTitle (filename : Str) : Str :=
  List.intercalate ([' '])
    ((filename.splitOn '-').map (fun w =>
      match w with
      | [] => []
      | c :: cs => c.toUpper :: cs))

/-- The entry built by `StaticSiteGenerator.parseMarkdownFile` (the fields
the rest of the generator reads; the `...metadata` spread of further YAML
keys carries no other field the program uses). -/
structure ParsedFile where
  filename : Str
  title : Str
  date : Str
  layout : Str
  content : Str
  url : Str
deriving Repr, DecidableEq

/-- Embeds `StaticSiteGenerator.parseMarkdownFile` (lines 133-172), given
the file's content (`none` models an unreadable file, for which the `catch`
returns `null`).  `markedParse` is the external Markdown renderer.  In the
source, the computed `title`/`date`/`layout` defaults are overwritten by the
`...metadata` spread, so a present key wins even when falsy — which is
`Option.getD`.  A YAML parse error is caught, leaving both the empty
metadata and the whole content as body; a `null` YAML document is replaced
by `{}` while the body is still group 2. -/
def parseMarkdownFile (yamlLoad : Str → Except Unit (Option Metadata))
    (markedParse : Str → Str) (today : Str)
    (relativePath : Str) (content? : Option Str) : Option ParsedFile :=
  match content? with
  | none => none
  | some content =>
    let filename := stripMdExt (basename relativePath)
    let parsed : Metadata × Str :=
      match frontMatterMatch content with
      | none => ({}, content)
      | some m =>
        match yamlLoad m.1 with
        | Except.error _ => ({}, content)
        | Except.ok none => ({}, m.2)
        | Except.ok (some md) => (md, m.2)
    some {
      filename := filename
      title := parsed.1.title.getD (formatTitle filename)
      date := parsed.1.date.getD today
      layout := parsed.1.layout.getD ("base".toList)
      content := markedParse parsed.2
      url := generateUrlFromPath relativePath }

/-- C2, counterexample: on a file with no front-matter block,
`extractPostData` returns `null` instead of producing an entry with empty
metadata and the whole content as body. -/
theorem c2_counterexample :
    extractPostData (fun _ => Except.error ()) [] [] ("Hello".toList) ("about.md".toList) =
      none := by
  rfl

/-- C2 (amended).  On content with no front-matter block,
`parseMarkdownFile` does treat the metadata as empty and the entire file
content as the body, producing an entry (never `null` once the file was
readable); `extractPostData` instead returns `null` for such a file. -/
theorem c2_no_front_matter (yamlLoad : Str → Except Unit (Option Metadata))
    (markedParse : Str → Str) (siteAuthor today relativePath content : Str)
    (h : frontMatterMatch content = none) :
    parseMarkdownFile yamlLoad markedParse today relativePath (some content) =
      some {
        filename := stripMdExt (basename relativePath)
        title := formatTitle (stripMdExt (basename relativePath))
        date := today
        layout := "base".toList
        content := markedParse content
        url := generateUrlFromPath relativePath } ∧
    extractPostData yamlLoad siteAuthor today content relativePath = none := by
  constructor
  · rw [parseMarkdownFile]
    simp [h]
  · rw [extractPostData, extractFrontMatter, h]
    rfl

theorem c2_no_front_matter_witness :
    parseMarkdownFile (fun _ => Except.error ()) (fun s => s) ("2024-01-01".toList)
        ("about.md".toList) (some ("Hello".toList)) =
      some {
        filename := stripMdExt (basename ("about.md".toList))
        title := formatTitle (stripMdExt (basename ("about.md".toList)))
        date := "2024-01-01".toList
        layout := "base".toList
        content := "Hello".toList
        url := generateUrlFromPath ("about.md".toList) } ∧
    extractPostData (fun _ => Except.error ()) [] ("2024-01-01".toList)
        ("Hello".toList) ("about.md".toList) = none := by
  have h := c2_no_front_matter (fun _ => Except.error ()) (fun s => s) []
    ("2024-01-01".toList) ("about.md".toList) ("Hello".toList) (by decide)
  exact h

-- ### Reading time (C8)

theorem ceilDiv200_eq_ceil (w : ℕ) :
    (w + 200 - 1) / 200 = ⌈(w : ℚ) / 200⌉₊ := by
  have h200 : (0 : ℚ) < 200 := by norm_num
  apply le_antisymm
  · have hle : (w : ℚ) / 200 ≤ (⌈(w : ℚ) / 200⌉₊ : ℚ) := Nat.le_ceil _
    have hw : w ≤ 200 * ⌈(w : ℚ) / 200⌉₊ := by
      have h1 : (w : ℚ) ≤ (⌈(w : ℚ) / 200⌉₊ : ℚ) * 200 := (div_le_iff₀ h200).mp hle
      have h2 : (w : ℚ) ≤ ((200 * ⌈(w : ℚ) / 200⌉₊ : ℕ) : ℚ) := by push_cast; linarith
      exact_mod_cast h2
    have h3 : (200 * ⌈(w : ℚ) / 200⌉₊ + 199) / 200 = ⌈(w : ℚ) / 200⌉₊ :=
      Nat.div_eq_of_lt_le (by omega) (by omega)
    calc (w + 200 - 1) / 200 ≤ (200 * ⌈(w : ℚ) / 200⌉₊ + 199) / 200 :=
          Nat.div_le_div_right (by omega)
      _ = ⌈(w : ℚ) / 200⌉₊ := h3
  · apply Nat.ceil_le.mpr
    rw [div_le_iff₀ h200]
    have hq : w ≤ ((w + 200 - 1) / 200) * 200 := by omega
    exact_mod_cast hq

/-- C8.  Every entry `extractPostData` produces satisfies
`readingTime = ⌈wordCount / 200⌉` (rational ceiling), and `wordCount` is the
nonnegative token count of the entry's body text. -/
theorem c8_readingTime (yamlLoad : Str → Except Unit (Option Metadata))
    (siteAuthor today content relativePath : Str) (p : Post)
    (h : extractPostData yamlLoad siteAuthor today content relativePath = some p) :
    p.readingTime = ⌈(p.wordCount : ℚ) / 200⌉₊ ∧
    p.wordCount = countWords (stripFrontMatter content) := by
  rcases hfm : extractFrontMatter content with _ | fm
  · rw [extractPostData, hfm] at h
    simp at h
  · rw [extractPostData, hfm] at h
    dsimp only at h
    rcases hy : yamlLoad fm with e | md
    · rw [hy] at h; simp at h
    · rcases md with _ | metadata
      · rw [hy] at h; simp at h
      · rw [hy] at h
        dsimp only at h
        simp only [Option.some_inj] at h
        subst h
        refine ⟨?_, rfl⟩
        show calculateReadingTime (stripFrontMatter content) = _
        rw [calculateReadingTime]
        exact ceilDiv200_eq_ceil _

/-- A concrete front-mattered file for instantiating the C8 theorem. -/
def c8TestContent : Str :=
  "---\nt\n---\nHello world".toList

/-- A YAML stub returning the empty mapping for the C8 witness. -/
def c8TestYaml : Str → Except Unit (Option Metadata) :=
  fun _ => Except.ok (some {})

/-- The entry `extractPostData` produces on `c8TestContent`. -/
def c8TestPost : Post :=
  match extractPostData c8TestYaml [] ("2024-01-01".toList) c8TestContent ("a.md".toList) with
  | some p => p
  | none =>
    { title := [], date := [], layout := [], categories := [], tags := [], author := [],
      excerpt := [], featured := false, draft := false, path := [], url := [],
      filename := [], directory := [], wordCount := 0, readingTime := 0 }

theorem c8_readingTime_witness :
    c8TestPost.readingTime = ⌈(c8TestPost.wordCount : ℚ) / 200⌉₊ ∧
    c8TestPost.wordCount = countWords (stripFrontMatter c8TestContent) :=
  c8_readingTime c8TestYaml [] ("2024-01-01".toList) c8TestContent ("a.md".toList)
    c8TestPost (by rfl)

-- ### Corpus statistics (C4)

/-- Models `Math.round` for the nonnegative values occurring here: round half up,
`⌊q + 1/2⌋`.  JS number arithmetic on these counts is exact (well below
2^53), so exact rationals model it faithfully. -/
def jsRound (q : ℚ) : ℤ :=
  ⌊q + 1 / 2⌋

/-- The record `getContentStats` returns. -/
structure ContentStats where
  totalPosts : Nat
  totalWords : Nat
  totalReadingTime : Nat
  averageWords : ℤ
  averageReadingTime : ℤ
  publishedPosts : Nat
  draftPosts : Nat
  featuredPosts : Nat
deriving Repr, DecidableEq

/-- Embeds `SmartConfigLoader.getContentStats` (lines 705-720). -/
def getContentStats (posts : List Post) : ContentStats :=
  let publishedPosts := posts.filter (fun p => !p.draft)
  let totalWords := (publishedPosts.map (fun p => p.wordCount)).sum
  let totalReadingTime := (publishedPosts.map (fun p => p.readingTime)).sum
  { totalPosts := posts.length
    totalWords := totalWords
    totalReadingTime := totalReadingTime
    averageWords :=
      if 0 < posts.length then jsRound ((totalWords : ℚ) / posts.length) else 0
    averageReadingTime :=
      if 0 < posts.length then jsRound ((totalReadingTime : ℚ) / posts.length) else 0
    publishedPosts := publishedPosts.length
    draftPosts := (posts.filter (fun p => p.draft)).length
    featuredPosts := (posts.filter (fun p => p.featured)).length }

theorem length_filter_not_add_length_filter (l : List Post) (f : Post → Bool) :
    (l.filter (fun p => !f p)).length + (l.filter f).length = l.length := by
  induction l with
  | nil => rfl
  | cons p rest ih =>
    by_cases h : f p <;> simp [List.filter_cons, h, ← ih] <;> omega

/-- C4.  The stats record satisfies: `totalPosts` counts all entries
(drafts included); `totalWords`/`totalReadingTime` sum word counts and
reading times over non-draft entries only; the averages divide those totals
by the total post count, rounded to the nearest integer (half up), and are
`0` when there are no posts; and `publishedPosts + draftPosts = totalPosts`. -/
theorem c4_contentStats (posts : List Post) :
    (getContentStats posts).totalPosts = posts.length ∧
    (getContentStats posts).totalWords =
      ((posts.filter (fun p => !p.draft)).map (fun p => p.wordCount)).sum ∧
    (getContentStats posts).totalReadingTime =
      ((posts.filter (fun p => !p.draft)).map (fun p => p.readingTime)).sum ∧
    (getContentStats posts).averageWords =
      (if 0 < posts.length then
        jsRound (((getContentStats posts).totalWords : ℚ) / posts.length) else 0) ∧
    (getContentStats posts).averageReadingTime =
      (if 0 < posts.length then
        jsRound (((getContentStats posts).totalReadingTime : ℚ) / posts.length) else 0) ∧
    (getContentStats posts).publishedPosts + (getContentStats posts).draftPosts =
      (getContentStats posts).totalPosts := by
  refine ⟨rfl, rfl, rfl, rfl, rfl, ?_⟩
  exact length_filter_not_add_length_filter posts (fun p => p.draft)

-- ### Category and tag buckets (C5)

/-- The lightweight reference pushed into a bucket's `posts` array. -/
structure PostRef where
  title : Str
  url : Str
  date : Str
deriving Repr, DecidableEq

/-- One category/tag bucket. -/
structure Bucket where
  name : Str
  count : Nat
  posts : List PostRef
  url : Str
deriving Repr, DecidableEq

/-- Builds `{ title: post.title, url: post.url, date: post.date }`. -/
def postRef (p : Post) : PostRef :=
  { title := p.title, url := p.url, date := p.date }

/-- Models a JS object property read: the buckets object, as an insertion-ordered
association list with unique keys. -/
def lookupBucket (key : Str) : List (Str × Bucket) → Option Bucket
  | [] => none
  | (k, b) :: rest => if k = key then some b else lookupBucket key rest

/-- Models a JS object property write on an existing key. -/
def updateBucket (key : Str) (f : Bucket → Bucket) :
    List (Str × Bucket) → List (Str × Bucket)
  | [] => []
  | (k, b) :: rest =>
    if k = key then (k, f b) :: rest else (k, b) :: updateBucket key f rest

/-- One step of the `forEach` in `getCategories`/`getTags`: create the
bucket on first occurrence (inserted last, JS insertion order), then
`count++` and push the post reference. -/
def addToBucket (urlPre : Str) (p : Post) (dict : List (Str × Bucket)) (key : Str) :
    List (Str × Bucket) :=
  match lookupBucket key dict with
  | none =>
    dict ++ [(key,
      { name := key, count := 1, posts := [postRef p],
        url := urlPre ++ slugify key ++ ['/'] })]
  | some _ =>
    updateBucket key
      (fun b => { b with count := b.count + 1, posts := b.posts ++ [postRef p] }) dict

/-- The shared shape of `getCategories` (lines 634-657) and `getTags`
(lines 660-683); the two source functions are textually identical up to the
array read and the URL prefix. -/
def buildBuckets (field : Post → List Str) (urlPre : Str) (posts : List Post) :
    List (Str × Bucket) :=
  posts.foldl (fun dict p => (field p).foldl (addToBucket urlPre p) dict) []

/-- Embeds `SmartConfigLoader.getCategories`. -/
def getCategories (posts : List Post) : List (Str × Bucket) :=
  buildBuckets (fun p => p.categories) ("/category/".toList) posts

/-- Embeds `SmartConfigLoader.getTags`. -/
def getTags (posts : List Post) : List (Str × Bucket) :=
  buildBuckets (fun p => p.tags) ("/tag/".toList) posts

theorem lookup_updateBucket (key k : Str) (f : Bucket → Bucket)
    (d : List (Str × Bucket)) :
    lookupBucket key (updateBucket k f d) =
      if k = key then (lookupBucket key d).map f else lookupBucket key d := by
  induction d with
  | nil => by_cases h : k = key <;> simp [updateBucket, lookupBucket, h]
  | cons kb rest ih =>
    obtain ⟨k', b⟩ := kb
    by_cases h1 : k' = k
    · subst h1
      by_cases h2 : k' = key <;> simp [updateBucket, lookupBucket, h2, ih]
    · by_cases h2 : k' = key
      · subst h2
        have : ¬ k = k' := fun hc => h1 hc.symm
        simp [updateBucket, lookupBucket, h1, this]
      · simp [updateBucket, lookupBucket, h1, h2, ih]

theorem lookup_append_single (key k : Str) (b : Bucket) (d : List (Str × Bucket)) :
    lookupBucket key (d ++ [(k, b)]) =
      match lookupBucket key d with
      | some b' => some b'
      | none => if k = key then some b else none := by
  induction d with
  | nil => simp [lookupBucket]
  | cons kb rest ih =>
    obtain ⟨k', b'⟩ := kb
    by_cases h : k' = key <;> simp [lookupBucket, h, ih]

theorem lookup_addToBucket (u : Str) (p : Post) (d : List (Str × Bucket)) (k key : Str) :
    lookupBucket key (addToBucket u p d k) =
      if k = key then
        match lookupBucket key d with
        | none => some { name := key, count := 1, posts := [postRef p],
                         url := u ++ slugify key ++ ['/'] }
        | some b => some { b with count := b.count + 1, posts := b.posts ++ [postRef p] }
      else lookupBucket key d := by
  rw [addToBucket]
  rcases hk : lookupBucket k d with _ | b
  · rw [lookup_append_single]
    by_cases h : k = key
    · subst h
      rw [hk]
    · rcases hd : lookupBucket key d with _ | b' <;> simp [h, hd]
  · rw [lookup_updateBucket]
    by_cases h : k = key
    · subst h
      rw [hk]
      simp
    · simp [h]

/-- The count stored for `key`, `0` when the bucket does not exist. -/
def bCount (d : List (Str × Bucket)) (key : Str) : Nat :=
  match lookupBucket key d with
  | none => 0
  | some b => b.count

theorem bCount_foldl_addToBucket (u : Str) (p : Post) (cs : List Str)
    (d : List (Str × Bucket)) (key : Str) :
    bCount (cs.foldl (addToBucket u p) d) key = bCount d key + cs.count key := by
  induction cs generalizing d with
  | nil => simp
  | cons c cs ih =>
    rw [List.foldl_cons, ih, List.count_cons]
    have hstep : bCount (addToBucket u p d c) key =
        bCount d key + if c == key then 1 else 0 := by
      rw [bCount, lookup_addToBucket]
      by_cases h : c = key
      · subst h
        rcases hk : lookupBucket c d with _ | b <;> simp [bCount, hk]
      · have h' : (c == key) = false := by simp [h]
        simp [h, h', bCount]
    omega

/-- Buckets are well-formed: keyed by their own name, with `count` equal to
the length of the reference list. -/
def dictWF (d : List (Str × Bucket)) : Prop :=
  ∀ key b, lookupBucket key d = some b → b.name = key ∧ b.count = b.posts.length

theorem dictWF_addToBucket (u : Str) (p : Post) (d : List (Str × Bucket)) (k : Str)
    (h : dictWF d) : dictWF (addToBucket u p d k) := by
  intro key b hb
  rw [lookup_addToBucket] at hb
  by_cases hk : k = key
  · rw [if_pos hk] at hb
    rcases hl : lookupBucket key d with _ | b0 <;> rw [hl] at hb
    · simp at hb
      subst hb
      exact ⟨rfl, rfl⟩
    · simp at hb
      subst hb
      obtain ⟨hn, hc⟩ := h key b0 hl
      constructor
      · simpa using hn
      · simp [hc]
  · rw [if_neg hk] at hb
    exact h key b hb

theorem dictWF_foldl (u : Str) (p : Post) (cs : List Str) (d : List (Str × Bucket))
    (h : dictWF d) : dictWF (cs.foldl (addToBucket u p) d) := by
  induction cs generalizing d with
  | nil => exact h
  | cons c cs ih => exact ih _ (dictWF_addToBucket u p d c h)

theorem dictWF_buildBuckets (field : Post → List Str) (u : Str) (posts : List Post) :
    dictWF (buildBuckets field u posts) := by
  rw [buildBuckets]
  have hgen : ∀ d, dictWF d → dictWF
      (posts.foldl (fun dict p => (field p).foldl (addToBucket u p) dict) d) := by
    induction posts with
    | nil => exact fun d h => h
    | cons p rest ih =>
      intro d h
      exact ih _ (dictWF_foldl u p (field p) d h)
  exact hgen [] (by intro key b hb; simp [lookupBucket] at hb)

theorem bCount_buildBuckets (field : Post → List Str) (u : Str) (posts : List Post)
    (key : Str) :
    bCount (buildBuckets field u posts) key =
      (posts.map (fun p => (field p).count key)).sum := by
  rw [buildBuckets]
  have hgen : ∀ d,
      bCount (posts.foldl (fun dict p => (field p).foldl (addToBucket u p) dict) d) key =
        bCount d key + (posts.map (fun p => (field p).count key)).sum := by
    induction posts with
    | nil => intro d; simp
    | cons p rest ih =>
      intro d
      rw [List.foldl_cons, ih, bCount_foldl_addToBucket]
      simp [Nat.add_assoc]
  exact (hgen []).trans (by simp [bCount, lookupBucket])

theorem count_eq_one_of_nodup_mem {l : List Str} {key : Str}
    (hnd : l.Nodup) (hm : key ∈ l) : l.count key = 1 := by
  induction l with
  | nil => cases hm
  | cons a t ih =>
    rw [List.count_cons]
    rcases List.mem_cons.mp hm with h | h
    · subst h
      have hnot : key ∉ t := (List.nodup_cons.mp hnd).1
      rw [List.count_eq_zero.mpr hnot]
      simp
    · have hne : a ≠ key := by
        intro hc
        exact (List.nodup_cons.mp hnd).1 (hc ▸ h)
      rw [ih (List.nodup_cons.mp hnd).2 h]
      simp [hne]

theorem sum_count_eq_filter_length (posts : List Post) (key : Str)
    (field : Post → List Str) (h : ∀ p ∈ posts, (field p).Nodup) :
    (posts.map (fun p => (field p).count key)).sum =
      (posts.filter (fun p => decide (key ∈ field p))).length := by
  induction posts with
  | nil => rfl
  | cons p rest ih =>
    have hp : (field p).Nodup := h p (List.mem_cons_self p rest)
    have hrest := ih (fun q hq => h q (List.mem_cons_of_mem p hq))
    by_cases hmem : key ∈ field p
    · have h1 : (field p).count key = 1 := count_eq_one_of_nodup_mem hp hmem
      simp [List.filter_cons, hmem, h1, hrest, Nat.add_comm]
    · have h0 : (field p).count key = 0 := List.count_eq_zero.mpr hmem
      simp [List.filter_cons, hmem, h0, hrest]

theorem bucket_spec (field : Post → List Str) (u : Str) (posts : List Post)
    (key : Str) (b : Bucket)
    (h : lookupBucket key (buildBuckets field u posts) = some b) :
    b.name = key ∧ b.count = b.posts.length ∧
    b.count = (posts.map (fun p => (field p).count key)).sum := by
  obtain ⟨hn, hc⟩ := dictWF_buildBuckets field u posts key b h
  refine ⟨hn, hc, ?_⟩
  have := bCount_buildBuckets field u posts key
  rw [bCount, h] at this
  exact this

/-- A concrete entry for instantiating the aggregation theorems. -/
def mkTestPost (cats tgs : List Str) : Post :=
  { title := "T".toList, date := "2024-01-01".toList, layout := "post".toList,
    categories := cats, tags := tgs, author := "A".toList, excerpt := [],
    featured := false, draft := false, path := "t.md".toList,
    url := "/t/".toList, filename := "t".toList, directory := ['.'],
    wordCount := 10, readingTime := 1 }

/-- C5, counterexample: a post listing the same category twice yields a
bucket with `count = 2`, while only one entry's category list contains the
name — the code counts occurrences, not entries. -/
theorem c5_counterexample :
    ((lookupBucket ("a".toList)
        (getCategories [mkTestPost ["a".toList, "a".toList] []])).map
      (fun b => b.count)) = some 2 ∧
    (([mkTestPost ["a".toList, "a".toList] []].filter
        (fun p => decide (("a".toList) ∈ p.categories))).length) = 1 := by
  exact ⟨by rfl, by rfl⟩

/-- C5 (amended).  Every category/tag bucket satisfies
`count = length(posts list)`, and `count` equals the total number of
occurrences of the bucket's name across the entries' category/tag lists;
when no entry repeats a name inside its own list (the normal case), this is
exactly the number of entries whose list contains the name. -/
theorem c5_bucket_counts :
    (∀ (posts : List Post) (key : Str) (b : Bucket),
        lookupBucket key (getCategories posts) = some b →
        b.count = b.posts.length ∧
        b.count = (posts.map (fun p => p.categories.count key)).sum ∧
        ((∀ p ∈ posts, p.categories.Nodup) →
          b.count = (posts.filter (fun p => decide (key ∈ p.categories))).length)) ∧
    (∀ (posts : List Post) (key : Str) (b : Bucket),
        lookupBucket key (getTags posts) = some b →
        b.count = b.posts.length ∧
        b.count = (posts.map (fun p => p.tags.count key)).sum ∧
        ((∀ p ∈ posts, p.tags.Nodup) →
          b.count = (posts.filter (fun p => decide (key ∈ p.tags))).length)) := by
  constructor
  · intro posts key b h
    obtain ⟨hn, hc, hs⟩ := bucket_spec _ _ posts key b h
    exact ⟨hc, hs, fun hnd => hs.trans (sum_count_eq_filter_length posts key _ hnd)⟩
  · intro posts key b h
    obtain ⟨hn, hc, hs⟩ := bucket_spec _ _ posts key b h
    exact ⟨hc, hs, fun hnd => hs.trans (sum_count_eq_filter_length posts key _ hnd)⟩

/-- The bucket the C5 witness instantiates the theorem with. -/
def c5TestBucket : Bucket :=
  match lookupBucket ("a".toList) (getCategories [mkTestPost ["a".toList] []]) with
  | some b => b
  | none => { name := [], count := 0, posts := [], url := [] }

theorem c5_bucket_counts_witness :
    c5TestBucket.count = c5TestBucket.posts.length ∧
    c5TestBucket.count =
      ([mkTestPost ["a".toList] []].filter
        (fun p => decide (("a".toList) ∈ p.categories))).length := by
  have h := c5_bucket_counts.1 [mkTestPost ["a".toList] []] ("a".toList)
    c5TestBucket (by rfl)
  exact ⟨h.1, h.2.2 (by decide)⟩

-- ### Navigation (C6)

/-- One navigation item; `count` is absent (`none`) for the home and about
entries. -/
structure NavEntry where
  title : Str
  url : Str
  icon : Str
  navType : Str
  count : Option Nat
deriving Repr, DecidableEq

/-- The fixed home entry (`{ title: '首页', url: '/', icon: 'home',
type: 'home' }`). -/
def homeNav : NavEntry :=
  { title := "首页".toList, url := "/".toList, icon := "home".toList,
    navType := "home".toList, count := none }

/-- The comparator `(a, b) => b.count - a.count`: `a` may precede `b` when
`b.count ≤ a.count` (descending). -/
def byCountDesc (a b : Bucket) : Prop :=
  b.count ≤ a.count

instance : DecidableRel byCountDesc :=
  fun a b => Nat.decLe b.count a.count

instance : IsTotal Bucket byCountDesc :=
  ⟨fun a b => Nat.le_total b.count a.count⟩

instance : IsTrans Bucket byCountDesc :=
  ⟨fun _ _ _ h1 h2 => Nat.le_trans h2 h1⟩

/-- The `mainCategories` computation of `generateNavigation`:
`Object.values(categories).filter(c => c.count > 1).sort((a, b) => b.count - a.count).slice(0, 5)`.
`Object.values` enumerates in insertion order (the association-list order);
the JS stable sort is modelled by insertion sort. -/
def mainCategories (categories : List (Str × Bucket)) : List Bucket :=
  (List.insertionSort byCountDesc
    ((categories.map Prod.snd).filter (fun c => 1 < c.count))).take 5

/-- The navigation item built for a main category. -/
def categoryNav (b : Bucket) : NavEntry :=
  { title := b.name, url := b.url, icon := "folder".toList,
    navType := "category".toList, count := some b.count }

/-- The about entry (`{ title: '关于', url: aboutPage.url, icon: 'user',
type: 'page' }`), added when `pages.find(p => p.filename === 'about')`
succeeds. -/
def aboutNavPart (pages : List Post) : List NavEntry :=
  match pages.find? (fun p => p.filename == "about".toList) with
  | some aboutPage =>
    [{ title := "关于".toList, url := aboutPage.url, icon := "user".toList,
       navType := "page".toList, count := none }]
  | none => []

/-- The archive entry, added when `stats.totalPosts > 0`, carrying the total
post count. -/
def archiveNavPart (stats : ContentStats) : List NavEntry :=
  if 0 < stats.totalPosts then
    [{ title := "归档".toList, url := "/archive/".toList, icon := "archive".toList,
       navType := "archive".toList, count := some stats.totalPosts }]
  else []

/-- Embeds `SmartConfigLoader.generateNavigation` (lines 723-772), taking
the already-aggregated categories, pages and stats the source reads from
`this.config.content`. -/
def generateNavigation (categories : List (Str × Bucket)) (pages : List Post)
    (stats : ContentStats) : List NavEntry :=
  homeNav :: (mainCategories categories).map categoryNav
    ++ aboutNavPart pages ++ archiveNavPart stats

/-- C6.  The navigation is ordered: the fixed home entry first; then the
categories with count > 1, sorted by descending count and truncated to at
most 5 (all of them, when at most 5 qualify); then an about entry exactly
when a page with base name `about` exists; then an archive entry carrying
the total post count exactly when at least one post exists. -/
theorem c6_navigation (categories : List (Str × Bucket)) (pages : List Post)
    (stats : ContentStats) :
    generateNavigation categories pages stats =
      homeNav :: (mainCategories categories).map categoryNav
        ++ aboutNavPart pages ++ archiveNavPart stats ∧
    (mainCategories categories).length ≤ 5 ∧
    (mainCategories categories).Sorted byCountDesc ∧
    (∀ b ∈ mainCategories categories, 1 < b.count ∧ b ∈ categories.map Prod.snd) ∧
    (((categories.map Prod.snd).filter (fun c => 1 < c.count)).length ≤ 5 →
      List.Perm (mainCategories categories)
        ((categories.map Prod.snd).filter (fun c => 1 < c.count))) ∧
    (aboutNavPart pages = [] ↔ ∀ p ∈ pages, ¬ p.filename = "about".toList) ∧
    archiveNavPart stats =
      (if 0 < stats.totalPosts then
        [{ title := "归档".toList, url := "/archive/".toList, icon := "archive".toList,
           navType := "archive".toList, count := some stats.totalPosts }] else []) := by
  refine ⟨rfl, ?_, ?_, ?_, ?_, ?_, rfl⟩
  · exact (List.length_take_le 5 _).trans (by simp)
  · exact (List.sorted_insertionSort byCountDesc _).sublist (List.take_sublist 5 _)
  · intro b hb
    have hmem : b ∈ List.insertionSort byCountDesc
        ((categories.map Prod.snd).filter (fun c => 1 < c.count)) :=
      (List.take_sublist 5 _).mem hb
    have hmem2 : b ∈ (categories.map Prod.snd).filter (fun c => 1 < c.count) := by
      rw [List.mem_insertionSort] at hmem
      exact hmem
    have := List.mem_filter.mp hmem2
    exact ⟨by simpa using this.2, this.1⟩
  · intro hlen
    have hperm := List.perm_insertionSort byCountDesc
      ((categories.map Prod.snd).filter (fun c => 1 < c.count))
    have hfull : (List.insertionSort byCountDesc
        ((categories.map Prod.snd).filter (fun c => 1 < c.count))).take 5 =
        List.insertionSort byCountDesc
          ((categories.map Prod.snd).filter (fun c => 1 < c.count)) := by
      apply List.take_of_length_le
      rw [hperm.length_eq]
      exact hlen
    rw [mainCategories, hfull]
    exact hperm
  · rw [aboutNavPart]
    rcases hf : pages.find? (fun p => p.filename == "about".toList) with _ | page <;> rw [hf]
    · simp only [List.find?_eq_none] at hf
      constructor
      · intro _ p hp
        simpa using hf p hp
      · intro _
        rfl
    · have hsome := List.find?_some hf
      have hmem := List.mem_of_find?_eq_some hf
      constructor
      · intro hcontr
        exact absurd hcontr (by simp)
      · intro hall
        exact absurd (by simpa using hsome) (hall page hmem)

theorem c6_navigation_witness :
    List.Perm (mainCategories []) ((([] : List (Str × Bucket)).map Prod.snd).filter
      (fun c => 1 < c.count)) ∧
    (aboutNavPart [] = [] ↔ ∀ p ∈ ([] : List Post), ¬ p.filename = "about".toList) := by
  have h := c6_navigation [] [] (getContentStats [])
  exact ⟨h.2.2.2.2.1 (by decide), h.2.2.2.2.2.1⟩

-- ### Directory walking (C7)

/-- A directory tree: regular files and directories with entries listed in
`readdirSync` order. -/
inductive FsTree where
  | file (name : Str)
  | dir (name : Str) (children : List FsTree)
deriving Repr

/-- Models `item.startsWith('.')`: the hidden-file marker test. -/
def hiddenName (name : Str) : Bool :=
  match name with
  | [] => false
  | c :: _ => c = '.'

/-- Models `relativePath ? path.join(relativePath, item) : item`. -/
def joinRel (rel name : Str) : Str :=
  if rel = [] then name else rel ++ '/' :: name

/-- Embeds the loop of `SmartConfigLoader.walkDirectory` (lines 808-830)
over the entries of an existing directory: entries whose name starts with
`.` are skipped (files and directories alike), directories are recursed
into, and every other file is passed to the callback.  The result lists the
relative paths of the visited files, in visit order. -/
def walkForest : List FsTree → Str → List Str
  | [], _ => []
  | FsTree.file name :: rest, rel =>
    (if hiddenName name then [] else [joinRel rel name]) ++ walkForest rest rel
  | FsTree.dir name children :: rest, rel =>
    (if hiddenName name then [] else walkForest children (joinRel rel name)) ++
      walkForest rest rel

/-- Embeds `walkDirectory` itself: `none` models a root for which
`fs.existsSync` fails — the function returns immediately (zero visits, no
error). -/
def walkDirectory : Option (List FsTree) → List Str
  | none => []
  | some entries => walkForest entries []

/-- Embeds the loop of `StaticSiteGenerator.findMarkdownFiles`
(lines 32-50): no hidden-name check; files ending in `.md` are collected. -/
def findMarkdownFilesForest : List FsTree → Str → List Str
  | [], _ => []
  | FsTree.file name :: rest, rel =>
    (if ".md".toList.isSuffixOf name then [joinRel rel name] else []) ++
      findMarkdownFilesForest rest rel
  | FsTree.dir name children :: rest, rel =>
    findMarkdownFilesForest children (joinRel rel name) ++
      findMarkdownFilesForest rest rel

/-- Embeds `findMarkdownFiles`: `fs.readdirSync` throws when the directory
does not exist (`none`), modelled as `Except.error`. -/
def findMarkdownFiles : Option (List FsTree) → Except Unit (List Str)
  | none => Except.error ()
  | some entries => Except.ok (findMarkdownFilesForest entries [])

/-- The component paths of all files in a forest, hidden ones included. -/
def allFilePaths : List FsTree → List (List Str)
  | [] => []
  | FsTree.file name :: rest => [name] :: allFilePaths rest
  | FsTree.dir name children :: rest =>
    (allFilePaths children).map (fun comps => name :: comps) ++ allFilePaths rest

/-- Real directory entries have nonempty names. -/
def goodNames : List FsTree → Bool
  | [] => true
  | FsTree.file name :: rest => !name.isEmpty && goodNames rest
  | FsTree.dir name children :: rest =>
    !name.isEmpty && goodNames children && goodNames rest

/-- No component of the path starts with the hidden-file marker. -/
def hiddenFreeB (comps : List Str) : Bool :=
  comps.all (fun c => !hiddenName c)

theorem ne_nil_of_mem_allFilePaths :
    ∀ (forest : List FsTree) (comps : List Str),
      comps ∈ allFilePaths forest → comps ≠ []
  | [], comps, h => by rw [allFilePaths] at h; exact absurd h (List.not_mem_nil comps)
  | FsTree.file n :: rest, comps, h => by
    rw [allFilePaths] at h
    rcases List.mem_cons.mp h with h1 | h1
    · subst h1; simp
    · exact ne_nil_of_mem_allFilePaths rest comps h1
  | FsTree.dir n ch :: rest, comps, h => by
    rw [allFilePaths] at h
    rcases List.mem_append.mp h with h1 | h1
    · obtain ⟨c0, _, hc⟩ := List.mem_map.mp h1
      subst hc; simp
    · exact ne_nil_of_mem_allFilePaths rest comps h1

theorem joinRel_assoc (rel n s : Str) (hn : n ≠ []) :
    joinRel (joinRel rel n) s = joinRel rel (n ++ '/' :: s) := by
  by_cases h : rel = [] <;> simp [joinRel, h, hn, List.append_assoc]

theorem joinComps_cons_ne_nil (n : Str) (comps : List Str) (hc : comps ≠ []) :
    joinComps (n :: comps) = n ++ '/' :: joinComps comps := by
  cases comps with
  | nil => exact absurd rfl hc
  | cons c cs => rfl

theorem walkForest_eq :
    ∀ (forest : List FsTree) (rel : Str), goodNames forest = true →
      walkForest forest rel =
        ((allFilePaths forest).filter hiddenFreeB).map
          (fun comps => joinRel rel (joinComps comps))
  | [], rel, _ => by simp [walkForest, allFilePaths]
  | FsTree.file n :: rest, rel, h => by
    rw [goodNames, Bool.and_eq_true] at h
    rw [walkForest, allFilePaths, List.filter_cons,
      walkForest_eq rest rel h.2]
    by_cases hh : hiddenName n
    · simp [hh, hiddenFreeB]
    · simp [hh, hiddenFreeB, joinComps]
  | FsTree.dir n ch :: rest, rel, h => by
    rw [goodNames, Bool.and_eq_true, Bool.and_eq_true] at h
    obtain ⟨⟨hn, hch⟩, hrest⟩ := h
    rw [walkForest, allFilePaths, List.filter_append, List.map_append,
      walkForest_eq rest rel hrest]
    congr 1
    by_cases hh : hiddenName n
    · have hz : ((allFilePaths ch).map (fun comps => n :: comps)).filter hiddenFreeB = [] := by
        rw [List.filter_eq_nil_iff]
        intro a ha
        obtain ⟨c0, hc0, hceq⟩ := List.mem_map.mp ha
        subst hceq
        simp [hiddenFreeB, hh]
      rw [hz]
      simp [hh]
    · rw [if_neg hh, walkForest_eq ch (joinRel rel n) hch, List.filter_map]
      have hpred : ((allFilePaths ch).filter (hiddenFreeB ∘ (fun comps => n :: comps))) =
          (allFilePaths ch).filter hiddenFreeB := by
        apply List.filter_congr
        intro x _
        simp [hiddenFreeB, hh]
      rw [List.map_map, hpred]
      apply List.map_congr_left
      intro comps hmem
      have hcne : comps ≠ [] :=
        ne_nil_of_mem_allFilePaths ch comps (List.mem_filter.mp hmem).1
      have hnne : n ≠ [] := by
        intro hc
        rw [hc] at hn
        simp at hn
      simp only [Function.comp]
      rw [joinComps_cons_ne_nil n comps hcne, joinRel_assoc rel n _ hnne]

theorem getLastD_of_ne_nil {α : Type} (l : List α) (hl : l ≠ []) (d d' : α) :
    l.getLastD d = l.getLastD d' := by
  rw [List.getLastD_eq_getLast?, List.getLastD_eq_getLast?]
  rcases hg : l.getLast? with _ | a
  · exact absurd (List.getLast?_eq_none_iff.mp hg) hl
  · rfl

theorem findMdForest_eq :
    ∀ (forest : List FsTree) (rel : Str), goodNames forest = true →
      findMarkdownFilesForest forest rel =
        ((allFilePaths forest).filter
          (fun comps => ".md".toList.isSuffixOf (comps.getLastD []))).map
          (fun comps => joinRel rel (joinComps comps))
  | [], rel, _ => by simp [findMarkdownFilesForest, allFilePaths]
  | FsTree.file n :: rest, rel, h => by
    rw [goodNames, Bool.and_eq_true] at h
    rw [findMarkdownFilesForest, allFilePaths, List.filter_cons,
      findMdForest_eq rest rel h.2]
    by_cases hm : (['.', 'm', 'd'] : Str) <:+ n
    · simp [hm, joinComps, List.isSuffixOf_iff_suffix]
    · simp [hm, List.isSuffixOf_iff_suffix]
  | FsTree.dir n ch :: rest, rel, h => by
    rw [goodNames, Bool.and_eq_true, Bool.and_eq_true] at h
    obtain ⟨⟨hn, hch⟩, hrest⟩ := h
    rw [findMarkdownFilesForest, allFilePaths, List.filter_append, List.map_append,
      findMdForest_eq rest rel hrest, findMdForest_eq ch (joinRel rel n) hch,
      List.filter_map]
    congr 1
    have hpred : ((allFilePaths ch).filter
        ((fun comps => ".md".toList.isSuffixOf (comps.getLastD [])) ∘
          (fun comps => n :: comps))) =
        (allFilePaths ch).filter
          (fun comps => ".md".toList.isSuffixOf (comps.getLastD [])) := by
      apply List.filter_congr
      intro x hx
      have hxne := ne_nil_of_mem_allFilePaths ch x hx
      simp only [Function.comp]
      rw [List.getLastD_cons, getLastD_of_ne_nil x hxne n []]
    rw [List.map_map, hpred]
    apply List.map_congr_left
    intro comps hmem
    have hcne := ne_nil_of_mem_allFilePaths ch comps (List.mem_filter.mp hmem).1
    have hnne : n ≠ [] := by
      intro hc
      rw [hc] at hn
      simp at hn
    simp only [Function.comp]
    rw [joinComps_cons_ne_nil n comps hcne, joinRel_assoc rel n _ hnne]

/-- C7, counterexample: `findMarkdownFiles` — the content walk of
`StaticSiteGenerator`, cited by the claim — raises an error when the root
does not exist (instead of performing zero visits without error) and visits
a file whose name starts with the hidden-file marker. -/
theorem c7_counterexample :
    findMarkdownFiles none = Except.error () ∧
    findMarkdownFiles (some [FsTree.file ['.', 's', '.', 'm', 'd']]) =
      Except.ok [['.', 's', '.', 'm', 'd']] := by
  refine ⟨rfl, ?_⟩
  have hsuf : ".md".toList.isSuffixOf (['.', 's', '.', 'm', 'd'] : Str) = true := by decide
  have hsuf2 : (['.', 'm', 'd'] : Str) <:+ ['.', 's', '.', 'm', 'd'] := by decide
  simp [findMarkdownFiles, findMarkdownFilesForest, joinRel, hsuf, hsuf2]

/-- C7 (amended).  `SmartConfigLoader.walkDirectory` does visit exactly the
regular files none of whose path components starts with the hidden-file
marker, and a missing root is a no-op; but
`StaticSiteGenerator.findMarkdownFiles` applies no hidden-name filter
(collecting every `.md` file, hidden components included) and raises an
error when the root directory does not exist. -/
theorem c7_walk (forest : List FsTree) (h : goodNames forest = true) :
    walkDirectory (some forest) =
      ((allFilePaths forest).filter hiddenFreeB).map (fun comps => joinComps comps) ∧
    walkDirectory none = [] ∧
    findMarkdownFiles none = Except.error () ∧
    findMarkdownFiles (some forest) =
      Except.ok (((allFilePaths forest).filter
        (fun comps => ".md".toList.isSuffixOf (comps.getLastD []))).map
        (fun comps => joinComps comps)) := by
  refine ⟨?_, rfl, rfl, ?_⟩
  · rw [walkDirectory, walkForest_eq forest [] h]
    apply List.map_congr_left
    intro comps hmem
    simp [joinRel]
  · rw [findMarkdownFiles, findMdForest_eq forest [] h]
    have hmap : ((allFilePaths forest).filter
        (fun comps => ".md".toList.isSuffixOf (comps.getLastD []))).map
        (fun comps => joinRel [] (joinComps comps)) =
        ((allFilePaths forest).filter
          (fun comps => ".md".toList.isSuffixOf (comps.getLastD []))).map
        (fun comps => joinComps comps) := by
      apply List.map_congr_left
      intro comps hmem
      simp [joinRel]
    rw [hmap]

theorem c7_walk_witness :
    walkDirectory (some [FsTree.dir ['b'] [FsTree.file ['p', '.', 'm', 'd']]]) =
      ((allFilePaths [FsTree.dir ['b'] [FsTree.file ['p', '.', 'm', 'd']]]).filter
        hiddenFreeB).map (fun comps => joinComps comps) ∧
    walkDirectory none = [] := by
  have h := c7_walk [FsTree.dir ['b'] [FsTree.file ['p', '.', 'm', 'd']]]
    (by simp [goodNames])
  exact ⟨h.1, h.2.1⟩

-- ### Configuration loading (C9)

/-- The configuration keys the loaders touch (cf. `getDefaultConfig`). -/
structure Config where
  siteTitle : Str
  siteDescription : Str
  siteAuthor : Str
  siteBaseUrl : Str
  pathContent : Str
  pathTemplates : Str
  pathOutput : Str
  pathStatic : Str
  markdownBreaks : Bool
  markdownGfm : Bool
  markdownHeaderIds : Bool
  serverPort : Nat
  serverOpen : Bool
deriving Repr, DecidableEq

/-- Embeds `ConfigLoader.getDefaultConfig`; `baseDir` stands for
`path.join(__dirname, '..')`. -/
def getDefaultConfig (baseDir : Str) : Config :=
  { siteTitle := "My Static Site".toList
    siteDescription := "A website generated with static site generator".toList
    siteAuthor := "Your Name".toList
    siteBaseUrl := "http://localhost:3000".toList
    pathContent := baseDir ++ "/content".toList
    pathTemplates := baseDir ++ "/templates".toList
    pathOutput := baseDir ++ "/output".toList
    pathStatic := baseDir ++ "/static".toList
    markdownBreaks := true
    markdownGfm := true
    markdownHeaderIds := true
    serverPort := 3000
    serverOpen := true }

/-- The `ConfigLoader.resolvePaths` rewrite of one path value: `./x`
becomes `baseDir/x` (`path.join(baseDir, value.substring(2))`). -/
def resolvePath (baseDir p : Str) : Str :=
  if "./".toList.isPrefixOf p then baseDir ++ '/' :: p.drop 2 else p

/-- Embeds `ConfigLoader.resolvePaths` applied to every path key. -/
def resolvePaths (baseDir : Str) (c : Config) : Config :=
  { c with
    pathContent := resolvePath baseDir c.pathContent
    pathTemplates := resolvePath baseDir c.pathTemplates
    pathOutput := resolvePath baseDir c.pathOutput
    pathStatic := resolvePath baseDir c.pathStatic }

/-- Embeds `ConfigLoader.loadConfig` (the stand-alone loader outside
`src/`, lines 12-25): `readFile` is `none` when reading `config.yml`
throws (file missing); `yamlLoad` returns `Except.error` when `yaml.load`
throws on malformed YAML.  Either failure is caught, logged, and the
built-in defaults are returned. -/
def ConfigLoader.loadConfig (baseDir : Str) (readFile : Option Str)
    (yamlLoad : Str → Except Unit Config) : Config :=
  match readFile with
  | none => getDefaultConfig baseDir
  | some text =>
    match yamlLoad text with
    | Except.error _ => getDefaultConfig baseDir
    | Except.ok c => resolvePaths baseDir c

/-- The `SmartConfigLoader.resolvePaths` rewrite, which additionally sends
`../x` through `path.resolve`, i.e. against the parent of the project
root. -/
def resolvePath2 (baseDir p : Str) : Str :=
  if "./".toList.isPrefixOf p then baseDir ++ '/' :: p.drop 2
  else if "../".toList.isPrefixOf p then dirname baseDir ++ '/' :: p.drop 3
  else p

/-- Embeds `SmartConfigLoader.resolvePaths` applied to every path key. -/
def resolvePaths2 (baseDir : Str) (c : Config) : Config :=
  { c with
    pathContent := resolvePath2 baseDir c.pathContent
    pathTemplates := resolvePath2 baseDir c.pathTemplates
    pathOutput := resolvePath2 baseDir c.pathOutput
    pathStatic := resolvePath2 baseDir c.pathStatic }

/-- Embeds `SmartConfigLoader.loadConfig` (lines 427-437).  There is no
`try`/`catch`: when `config.yml` exists but `yaml.load` throws, the
exception propagates out of the constructor (`Except.error`, crashing the
module load); when the file does not exist, execution falls through the
`if` and the method returns `undefined` (`none`) — no defaults, no
warning.  `deepMerge` with the empty `baseConfig` literal returns the user
document unchanged and is therefore elided. -/
def SmartConfigLoader.loadConfig (baseDir : Str) (fileExists : Bool)
    (fileText : Str) (yamlLoad : Str → Except Unit Config) :
    Except Unit (Option Config) :=
  if fileExists then
    match yamlLoad fileText with
    | Except.error e => Except.error e
    | Except.ok userConfig => Except.ok (some (resolvePaths2 baseDir userConfig))
  else Except.ok none

/-- C9.  The stand-alone `ConfigLoader.loadConfig` falls back to the
built-in defaults both when the configuration file is missing and when the
YAML is malformed, as the claim states; `SmartConfigLoader.loadConfig`
does not: a malformed document propagates the parse error (crashing the
build at module load), and a missing file yields no configuration at all
instead of the defaults. -/
theorem c9_loadConfig (baseDir text : Str) (yamlLoad : Str → Except Unit Config)
    (hbad : yamlLoad text = Except.error ()) :
    ConfigLoader.loadConfig baseDir none yamlLoad = getDefaultConfig baseDir ∧
    ConfigLoader.loadConfig baseDir (some text) yamlLoad = getDefaultConfig baseDir ∧
    SmartConfigLoader.loadConfig baseDir true text yamlLoad = Except.error () ∧
    SmartConfigLoader.loadConfig baseDir false text yamlLoad = Except.ok none := by
  refine ⟨rfl, ?_, ?_, rfl⟩
  · rw [ConfigLoader.loadConfig, hbad]
  · rw [SmartConfigLoader.loadConfig, if_pos rfl, hbad]

theorem c9_loadConfig_witness :
    ConfigLoader.loadConfig [] none (fun _ => Except.error ()) = getDefaultConfig [] ∧
    SmartConfigLoader.loadConfig [] true ['x'] (fun _ => Except.error ()) =
      Except.error () := by
  have h := c9_loadConfig [] ['x'] (fun _ => Except.error ()) rfl
  exact ⟨h.1, h.2.2.1⟩

-- ### Corpus construction (C10)

/-- The date-descending comparator
`(a, b) => new Date(b.date) - new Date(a.date)`; `dateVal` stands for the
external `Date` parser. -/
def byDateDesc (dateVal : Str → Int) (a b : Post) : Prop :=
  dateVal b.date ≤ dateVal a.date

instance (dateVal : Str → Int) : DecidableRel (byDateDesc dateVal) :=
  fun a b => Int.decLe (dateVal b.date) (dateVal a.date)

instance (dateVal : Str → Int) : IsTotal Post (byDateDesc dateVal) :=
  ⟨fun a b => Int.le_total (dateVal b.date) (dateVal a.date)⟩

instance (dateVal : Str → Int) : IsTrans Post (byDateDesc dateVal) :=
  ⟨fun _ _ _ h1 h2 => le_trans h2 h1⟩

/-- Embeds `SmartConfigLoader.getAllPosts` (lines 549-569), given the walk
output as (relative path, file content) pairs: keep `.md` files whose
relative path does not contain `index.md`, extract each (dropping the
`null`s), and sort by date descending (JS's stable sort, modelled by
insertion sort).  `extract` is `extractPostData` with its external
collaborators fixed. -/
def getAllPosts (dateVal : Str → Int) (extract : Str → Str → Option Post)
    (files : List (Str × Str)) : List Post :=
  List.insertionSort (byDateDesc dateVal)
    ((files.filter (fun f => postFileFilter f.1)).filterMap (fun f => extract f.2 f.1))

/-- Embeds `SmartConfigLoader.getPages` (lines 686-702): the complementary
filter, no sort. -/
def getPages (extract : Str → Str → Option Post) (files : List (Str × Str)) :
    List Post :=
  (files.filter (fun f => pageFileFilter f.1)).filterMap (fun f => extract f.2 f.1)

/-- C10.  A discovered `.md` file passes exactly one of the post/page
filters, the decision being made solely by whether its relative path
contains the substring `index.md`; and whenever extraction returns an
entry, that entry is placed in the corresponding list. -/
theorem c10_partition (dateVal : Str → Int) (extract : Str → Str → Option Post)
    (files : List (Str × Str)) (rel content : Str) (p : Post)
    (hmem : (rel, content) ∈ files) (hmd : ".md".toList.isSuffixOf rel = true)
    (hext : extract content rel = some p) :
    (¬ (postFileFilter rel = true ∧ pageFileFilter rel = true)) ∧
    (postFileFilter rel = true ∨ pageFileFilter rel = true) ∧
    (postFileFilter rel = true ↔ containsSub ("index.md".toList) rel = false) ∧
    (pageFileFilter rel = true ↔ containsSub ("index.md".toList) rel = true) ∧
    (containsSub ("index.md".toList) rel = false →
      p ∈ getAllPosts dateVal extract files) ∧
    (containsSub ("index.md".toList) rel = true →
      p ∈ getPages extract files) := by
  refine ⟨?_, ?_, ?_, ?_, ?_, ?_⟩
  · rintro ⟨h1, h2⟩
    rw [postFileFilter] at h1
    rw [pageFileFilter] at h2
    cases hc : containsSub ("index.md".toList) rel <;> rw [hc] at h1 h2 <;> simp at h1 h2
  · cases hc : containsSub ("index.md".toList) rel
    · exact Or.inl (by rw [postFileFilter, hmd, hc]; rfl)
    · exact Or.inr (by rw [pageFileFilter, hmd, hc]; rfl)
  · rw [postFileFilter, hmd]
    cases hc : containsSub ("index.md".toList) rel <;> simp
  · rw [pageFileFilter, hmd]
    cases hc : containsSub ("index.md".toList) rel <;> simp
  · intro hc
    rw [getAllPosts, List.mem_insertionSort, List.mem_filterMap]
    refine ⟨(rel, content), List.mem_filter.mpr ⟨hmem, ?_⟩, hext⟩
    rw [postFileFilter]
    simp only [Bool.and_eq_true, Bool.not_eq_true']
    exact ⟨hmd, hc⟩
  · intro hc
    rw [getPages, List.mem_filterMap]
    refine ⟨(rel, content), List.mem_filter.mpr ⟨hmem, ?_⟩, hext⟩
    rw [pageFileFilter]
    simp only [Bool.and_eq_true]
    exact ⟨hmd, hc⟩

/-- The YAML stub and extractor used by the C10 witness. -/
def c10Extract : Str → Str → Option Post :=
  fun content rel =>
    extractPostData (fun _ => Except.ok (some {})) [] ("2024-01-01".toList) content rel

/-- The entry the C10 witness places in the post corpus. -/
def c10TestPost : Post :=
  match c10Extract c8TestContent ("about.md".toList) with
  | some p => p
  | none => mkTestPost [] []

theorem c10_partition_witness :
    c10TestPost ∈ getAllPosts (fun _ => 0) c10Extract
      [(("about.md".toList), c8TestContent)] := by
  have h := c10_partition (fun _ => 0) c10Extract
    [(("about.md".toList), c8TestContent)] ("about.md".toList) c8TestContent
    c10TestPost (by simp) (by decide) (by rfl)
  exact h.2.2.2.2.1 (by decide)
